import Mathlib

/-!
Shallow embedding of the core of the `zont_api` library:
the delta-time-array decoder `ZontAPI.convert_delta_time_array` and the
recursive structural redactor `ZontAPI.filter_pii`, together with proofs
of the specification claims about them.

JSON-like Python values are modelled by the inductive type `JsonValue`;
Python exceptions surfacing from the two engines are modelled by `PyErr`
and fallible computations by `Except PyErr`.
-/

/-- A parsed JSON-like Python value: None, bool, int, str, list, dict.
Dicts are association lists in insertion order, as Python dicts iterate. -/
inductive JsonValue : Type where
  | jnull : JsonValue
  | jbool : Bool → JsonValue
  | jnum : Int → JsonValue
  | jstr : String → JsonValue
  | jarr : List JsonValue → JsonValue
  | jobj : List (String × JsonValue) → JsonValue

/-- Python exceptions that the embedded code can raise. -/
inductive PyErr : Type where
  | valueError : String → PyErr
  | typeError : String → PyErr
  | indexError : String → PyErr
  | attributeError : String → PyErr
deriving DecidableEq, Repr

/-- Python `type(x).__name__` for the modelled values. -/
def typeName : JsonValue → String
  | .jnull => "NoneType"
  | .jbool _ => "bool"
  | .jnum _ => "int"
  | .jstr _ => "str"
  | .jarr _ => "list"
  | .jobj _ => "dict"

/-- The numeric value of a decimal digit character, `none` otherwise. -/
def digitVal (c : Char) : Option Nat :=
  if '0' ≤ c ∧ c ≤ '9' then some (c.toNat - '0'.toNat) else none

/-- Parse a non-empty run of decimal digits, most significant first. -/
def parseDigits : List Char → Option Nat
  | [] => none
  | [c] => digitVal c
  | c :: rest =>
    match digitVal c, parseDigits rest with
    | some d, some n => some (d * 10 ^ rest.length + n)
    | _, _ => none

/-- Python `int(s)` on a string: an optional sign followed by a non-empty
run of decimal digits, `none` (a ValueError) otherwise. -/
def pyStrToInt (s : String) : Option Int :=
  match s.data with
  | '-' :: rest => (parseDigits rest).map (fun n => -(n : Int))
  | '+' :: rest => (parseDigits rest).map (fun n => (n : Int))
  | cs => (parseDigits cs).map (fun n => (n : Int))

/-- Python `int(x)` on a modelled value: ints pass through, bools convert
to 0/1, strings are parsed (ValueError on failure), anything else is a
TypeError. -/
def pyIntOfJson : JsonValue → Except PyErr Int
  | .jnum n => .ok n
  | .jbool b => .ok (if b then 1 else 0)
  | .jstr s =>
    match pyStrToInt s with
    | some n => .ok n
    | none => .error (.valueError ("invalid literal for int() with base 10: " ++ s))
  | v => .error (.typeError ("int() argument cannot be " ++ typeName v))

/-- The main loop of `convert_delta_time_array` (zont_api.py lines 348-369):
walks the elements carrying `latest_stamp` and `curr_stamp`, raising
ValueError for non-list elements, IndexError for empty elements, the
`int()` conversion error for unparseable leading fields; positive leading
values reset both stamps, negative ones advance `curr_stamp` by their
absolute value, zero skips the element. -/
def convertLoop : List JsonValue → Int → Int → Except PyErr (List (List JsonValue))
  | [], _, _ => .ok []
  | el :: rest, latest, curr =>
    match el with
    | .jarr [] => .error (.indexError "list index out of range")
    | .jarr (h :: payload) =>
      match pyIntOfJson h with
      | .error e => .error e
      | .ok t =>
        if 0 < t then
          match convertLoop rest t t with
          | .error e => .error e
          | .ok r => .ok ((JsonValue.jnum t :: payload) :: r)
        else if t < 0 then
          match convertLoop rest latest (curr + |t|) with
          | .error e => .error e
          | .ok r => .ok ((JsonValue.jnum (curr + |t|) :: payload) :: r)
        else
          convertLoop rest latest curr
    | other => .error (.valueError ("element: list expected but found " ++ typeName other))

/-- The sort key `lambda t: t[0]` used at zont_api.py line 372: a decoded
point always starts with its integer timestamp. -/
def sortKey : List JsonValue → Int
  | .jnum n :: _ => n
  | _ => 0

/-- Ascending comparison of decoded points by their sort key. -/
def ptLE (a b : List JsonValue) : Prop := sortKey a ≤ sortKey b

/-- Descending comparison of decoded points by their sort key. -/
def ptGE (a b : List JsonValue) : Prop := sortKey b ≤ sortKey a

instance : DecidableRel ptLE := fun a b => Int.decLe (sortKey a) (sortKey b)

instance : DecidableRel ptGE := fun a b => Int.decLe (sortKey b) (sortKey a)

instance : IsTotal (List JsonValue) ptLE := ⟨fun a b => Int.le_total (sortKey a) (sortKey b)⟩

instance : IsTrans (List JsonValue) ptLE := ⟨fun _ _ _ h1 h2 => le_trans h1 h2⟩

instance : IsTotal (List JsonValue) ptGE := ⟨fun a b => Int.le_total (sortKey b) (sortKey a)⟩

instance : IsTrans (List JsonValue) ptGE := ⟨fun _ _ _ h1 h2 => le_trans h2 h1⟩

/-- Python `sorted(result, key=lambda t: t[0], reverse=reverse)`: a stable
sort, ascending by the leading timestamp, descending when `reverse`
(Python's sort is stable in both directions, as is insertion sort). -/
def sortPoints (reverse : Bool) (l : List (List JsonValue)) : List (List JsonValue) :=
  if reverse then l.insertionSort ptGE else l.insertionSort ptLE

/-- The function `ZontAPI.convert_delta_time_array` (zont_api.py lines 328-374): raises
ValueError when the argument is not a list, otherwise runs the conversion
loop from stamps `(0, 0)` and optionally sorts the result. -/
def convert_delta_time_array (dta : JsonValue) (sort : Bool) (reverse : Bool) :
    Except PyErr (List (List JsonValue)) :=
  match dta with
  | .jarr elems =>
    match convertLoop elems 0 0 with
    | .error e => .error e
    | .ok result => if sort then .ok (sortPoints reverse result) else .ok result
  | other => .error (.valueError ("parent: list expected but found " ++ typeName other))

/-- Modelled from the spec: the `filter_duplicates` duplicate filter of
`convert_delta_time_array`, exercised by the repository's tests but absent
from this snapshot of `zont_api.py`. Per the spec, while still iterating in
decode order (before the sort step), suppress any point whose resolved
timestamp equals the immediately preceding emitted point's timestamp,
regardless of payload equality; the first point at a given timestamp is
kept. `prev` is the timestamp of the last emitted point. -/
def filterDupAux (prev : Int) : List (List JsonValue) → List (List JsonValue)
  | [] => []
  | p :: rest =>
    if sortKey p = prev then filterDupAux prev rest
    else p :: filterDupAux (sortKey p) rest

/-- Modelled from the spec: duplicate filtering over the decode-order list
of emitted points; the first point is always kept. -/
def filterDuplicatePoints : List (List JsonValue) → List (List JsonValue)
  | [] => []
  | p :: rest => p :: filterDupAux (sortKey p) rest

/-- Modelled from the spec: `convert_delta_time_array` extended with the
`filter_duplicates` knob from the spec's decoder contract, applied to the
decode-order result before the sort step. With `filter_duplicates = false`
this is exactly `convert_delta_time_array` of the source. -/
def convert_delta_time_array_fd (dta : JsonValue) (sort : Bool) (reverse : Bool)
    (filter_duplicates : Bool) : Except PyErr (List (List JsonValue)) :=
  match dta with
  | .jarr elems =>
    match convertLoop elems 0 0 with
    | .error e => .error e
    | .ok result =>
      let result := if filter_duplicates then filterDuplicatePoints result else result
      if sort then .ok (sortPoints reverse result) else .ok result
  | other => .error (.valueError ("parent: list expected but found " ++ typeName other))

/-- The table `ZontAPI.__pii_keys__` (zont_api.py lines 64-77): keys whose scalar
values are masked. -/
def pii_keys : List String :=
  ["ip", "login", "netname", "operator", "owner_username", "pass", "password",
   "phone", "serial", "usbpassword", "user_id", "username"]

/-- The table `ZontAPI.__pii_dicts__` (zont_api.py line 80): keys whose dict values
short-circuit the enclosing mapping to a fixed substitute. -/
def pii_dicts : List (String × JsonValue) :=
  [("sim_id", .jobj [("sim_id", .jobj [("operator", .jstr "***"), ("id", .jstr "***")])])]

/-- The table `ZontAPI.__pii_lists__` (zont_api.py line 83): keys whose list values
short-circuit the enclosing mapping to a fixed substitute. -/
def pii_lists : List (String × JsonValue) :=
  [("loc", .jobj [("loc", .jarr [])])]

mutual

/-- The function `ZontAPI.filter_pii` (zont_api.py lines 153-180). Scalars (neither
dict nor list) are returned unchanged; dicts are walked key by key; a list
argument reaches `data.items()` and raises AttributeError, since Python
lists have no `items` method. -/
def filter_pii : JsonValue → Except PyErr JsonValue
  | .jobj fields =>
    match filterFields fields with
    | .error e => .error e
    | .ok (.inl sub) => .ok sub
    | .ok (.inr fields2) => .ok (.jobj fields2)
  | .jarr _ => .error (.attributeError "list object has no attribute items")
  | v => .ok v

/-- The `for k, v in data.items()` loop of `filter_pii`: `.inl sub` models
the early `return` of a substitute for the whole mapping, `.inr fields2`
the updated key/value pairs after the loop runs to completion. -/
def filterFields : List (String × JsonValue) → Except PyErr (JsonValue ⊕ List (String × JsonValue))
  | [] => .ok (.inr [])
  | (k, v) :: rest =>
    match v with
    | .jobj m =>
      match pii_dicts.lookup k with
      | some sub => .ok (.inl sub)
      | none =>
        match filter_pii (.jobj m) with
        | .error e => .error e
        | .ok v2 =>
          match filterFields rest with
          | .error e => .error e
          | .ok (.inl sub) => .ok (.inl sub)
          | .ok (.inr r2) => .ok (.inr ((k, v2) :: r2))
    | .jarr xs =>
      match pii_lists.lookup k with
      | some sub => .ok (.inl sub)
      | none =>
        match filterElems xs with
        | .error e => .error e
        | .ok xs2 =>
          match filterFields rest with
          | .error e => .error e
          | .ok (.inl sub) => .ok (.inl sub)
          | .ok (.inr r2) => .ok (.inr ((k, .jarr xs2) :: r2))
    | v =>
      match filterFields rest with
      | .error e => .error e
      | .ok (.inl sub) => .ok (.inl sub)
      | .ok (.inr r2) =>
        .ok (.inr ((k, if k ∈ pii_keys then JsonValue.jstr "***" else v) :: r2))

/-- The `data[k] = [ZontAPI.filter_pii(i) for i in v]` list comprehension
of `filter_pii`: redacts each element of a list value in turn. -/
def filterElems : List JsonValue → Except PyErr (List JsonValue)
  | [] => .ok []
  | x :: rest =>
    match filter_pii x with
    | .error e => .error e
    | .ok x2 =>
      match filterElems rest with
      | .error e => .error e
      | .ok r2 => .ok (x2 :: r2)

end

/-- Resolved stamp per the spec's words, reading the processed leading
values most recent first: accumulate the absolute values of negative
deltas until the most recent positive anchor, which contributes its own
value; with no anchor the accumulation starts from 0, and zeros add
nothing. -/
def specStampRev : List Int → Int
  | [] => 0
  | v :: rest => if 0 < v then v else (if v < 0 then |v| else 0) + specStampRev rest

/-- Resolved stamp of the last of a prefix of leading values: the most
recent positive value increased by the sum of absolute values of the
negative values after it (from 0 when no positive value occurs). -/
def specStamp (leads : List Int) : Int := specStampRev leads.reverse

/-- The decoded points the spec promises: walking the `(lead, payload)`
pairs in order with the leading values seen so far, skip zero leads and
emit `[resolvedStamp, ...payload]` otherwise. -/
def emittedSpec (preLeads : List Int) : List (Int × List JsonValue) → List (List JsonValue)
  | [] => []
  | (v, payload) :: rest =>
    if v = 0 then emittedSpec (preLeads ++ [v]) rest
    else (JsonValue.jnum (specStamp (preLeads ++ [v])) :: payload) ::
      emittedSpec (preLeads ++ [v]) rest

theorem specStamp_nil : specStamp [] = 0 := rfl

theorem specStamp_append (p : List Int) (v : Int) :
    specStamp (p ++ [v]) =
      if 0 < v then v else if v < 0 then specStamp p + |v| else specStamp p := by
  unfold specStamp
  rw [List.reverse_append]
  simp only [List.reverse_singleton, List.singleton_append, specStampRev]
  by_cases h1 : 0 < v
  · simp [h1]
  · by_cases h2 : v < 0
    · simp [h1, h2, add_comm]
    · simp [h1, h2]

/-- The relation between an encoded element and its `(lead, payload)`
reading: the element is a non-empty list whose head converts to the lead. -/
def ElemReads (el : JsonValue) (p : Int × List JsonValue) : Prop :=
  ∃ h, el = JsonValue.jarr (h :: p.2) ∧ pyIntOfJson h = .ok p.1

/-- Unfolding of the conversion loop on a well-read head element. -/
theorem convertLoop_cons_ok (h : JsonValue) (payload rest : List JsonValue)
    (latest curr t : Int) (hint : pyIntOfJson h = .ok t) :
    convertLoop (JsonValue.jarr (h :: payload) :: rest) latest curr =
      if 0 < t then
        match convertLoop rest t t with
        | .error e => .error e
        | .ok r => .ok ((JsonValue.jnum t :: payload) :: r)
      else if t < 0 then
        match convertLoop rest latest (curr + |t|) with
        | .error e => .error e
        | .ok r => .ok ((JsonValue.jnum (curr + |t|) :: payload) :: r)
      else convertLoop rest latest curr := by
  simp only [convertLoop, hint]

/-- The conversion loop, started at the resolved stamp of the leading
values already processed, emits exactly the points the spec promises. -/
theorem convertLoop_emits {elems : List JsonValue} {pairs : List (Int × List JsonValue)}
    (hrel : List.Forall₂ ElemReads elems pairs) :
    ∀ (pre : List Int) (latest : Int),
      convertLoop elems latest (specStamp pre) = .ok (emittedSpec pre pairs) := by
  induction hrel with
  | nil => intro pre latest; rfl
  | cons rel hrel ih =>
    intro pre latest
    obtain ⟨h, rfl, hint⟩ := rel
    rename_i p' elems' pairs'
    rw [convertLoop_cons_ok h p'.2 elems' latest (specStamp pre) p'.1 hint]
    by_cases h1 : 0 < p'.1
    · have hs : specStamp (pre ++ [p'.1]) = p'.1 := by rw [specStamp_append]; simp [h1]
      have hloop := ih (pre ++ [p'.1]) p'.1
      rw [hs] at hloop
      have hne : p'.1 ≠ 0 := by omega
      simp only [if_pos h1, hloop, emittedSpec, if_neg hne, hs]
    · by_cases h2 : p'.1 < 0
      · have hs : specStamp (pre ++ [p'.1]) = specStamp pre + |p'.1| := by
          rw [specStamp_append]; simp [h1, h2]
        have hloop := ih (pre ++ [p'.1]) latest
        rw [hs] at hloop
        have hne : p'.1 ≠ 0 := by omega
        simp only [if_neg h1, if_pos h2, hloop, emittedSpec, if_neg hne, hs]
      · have h0 : p'.1 = 0 := by omega
        have hs : specStamp (pre ++ [p'.1]) = specStamp pre := by
          rw [specStamp_append]; simp [h1, h2]
        have hloop := ih (pre ++ [p'.1]) latest
        rw [hs] at hloop
        simp only [if_neg h1, if_neg h2, hloop, emittedSpec, if_pos h0]

/-- Unfolding of the conversion loop on a head element whose leading
field fails integer conversion. -/
theorem convertLoop_cons_err (h : JsonValue) (payload rest : List JsonValue)
    (latest curr : Int) (e : PyErr) (hint : pyIntOfJson h = .error e) :
    convertLoop (JsonValue.jarr (h :: payload) :: rest) latest curr = .error e := by
  simp only [convertLoop, hint]

/-- The spec's `MalformedInputError` corresponds to the ValueError raised
for non-sequence input and the ValueError/TypeError propagated from a
failed `int()` conversion; IndexError is outside that taxonomy. -/
def isMalformedInput : PyErr → Bool
  | .valueError _ => true
  | .typeError _ => true
  | .indexError _ => false
  | .attributeError _ => false

/-- An element the loop accepts: a non-empty list whose leading field
converts to an integer. -/
def goodElementB : JsonValue → Bool
  | .jarr (h :: _) =>
    match pyIntOfJson h with
    | .ok _ => true
    | .error _ => false
  | _ => false

/-- The error the loop raises at a given element, if any. -/
def elementError : JsonValue → Option PyErr
  | .jarr [] => some (.indexError "list index out of range")
  | .jarr (h :: _) =>
    match pyIntOfJson h with
    | .ok _ => none
    | .error e => some e
  | v => some (.valueError ("element: list expected but found " ++ typeName v))

theorem goodElementB_elim {el : JsonValue} (hg : goodElementB el = true) :
    ∃ h tl t, el = JsonValue.jarr (h :: tl) ∧ pyIntOfJson h = .ok t := by
  cases el with
  | jarr xs =>
    cases xs with
    | nil => exact Bool.noConfusion hg
    | cons h tl =>
      cases hh : pyIntOfJson h with
      | ok t => exact ⟨h, tl, t, rfl, hh⟩
      | error e =>
        have hfalse : goodElementB (JsonValue.jarr (h :: tl)) = false := by
          simp only [goodElementB, hh]
        rw [hfalse] at hg
        exact Bool.noConfusion hg
  | jnull => exact Bool.noConfusion hg
  | jbool b => exact Bool.noConfusion hg
  | jnum n => exact Bool.noConfusion hg
  | jstr s => exact Bool.noConfusion hg
  | jobj fs => exact Bool.noConfusion hg

/-- A loop over accepted elements only never raises. -/
theorem convertLoop_total {elems : List JsonValue}
    (hall : ∀ el ∈ elems, goodElementB el = true) :
    ∀ (latest curr : Int), ∃ out, convertLoop elems latest curr = .ok out := by
  induction elems with
  | nil => exact fun latest curr => ⟨[], rfl⟩
  | cons el rest ih =>
    intro latest curr
    obtain ⟨h, tl, t, rfl, hint⟩ := goodElementB_elim (hall el (by simp))
    have hall' : ∀ el ∈ rest, goodElementB el = true := fun x hx => hall x (by simp [hx])
    rw [convertLoop_cons_ok h tl rest latest curr t hint]
    by_cases h1 : 0 < t
    · obtain ⟨r, hr⟩ := ih hall' t t
      rw [if_pos h1, hr]
      exact ⟨_, rfl⟩
    · by_cases h2 : t < 0
      · obtain ⟨r, hr⟩ := ih hall' latest (curr + |t|)
        rw [if_neg h1, if_pos h2, hr]
        exact ⟨_, rfl⟩
      · obtain ⟨r, hr⟩ := ih hall' latest curr
        rw [if_neg h1, if_neg h2, hr]
        exact ⟨_, rfl⟩

/-- After any run of accepted elements, the first offending element's
error aborts the whole loop, whatever follows it. -/
theorem convertLoop_first_error {pre : List JsonValue}
    (hpre : ∀ el ∈ pre, goodElementB el = true)
    {bad : JsonValue} {e : PyErr} (hbad : elementError bad = some e)
    (rest : List JsonValue) :
    ∀ (latest curr : Int), convertLoop (pre ++ bad :: rest) latest curr = .error e := by
  induction pre with
  | nil =>
    intro latest curr
    cases bad with
    | jarr xs =>
      cases xs with
      | nil =>
        simp only [elementError, Option.some_inj] at hbad
        simp only [List.nil_append, convertLoop, ← hbad]
      | cons h tl =>
        cases hh : pyIntOfJson h with
        | ok t => rw [elementError, hh] at hbad; exact absurd hbad (by simp)
        | error e' =>
          rw [elementError, hh, Option.some_inj] at hbad
          rw [List.nil_append, convertLoop_cons_err h tl rest latest curr e' hh, hbad]
    | jnull =>
      simp only [elementError, Option.some_inj] at hbad
      simp only [List.nil_append, convertLoop, ← hbad]
    | jbool b =>
      simp only [elementError, Option.some_inj] at hbad
      simp only [List.nil_append, convertLoop, ← hbad]
    | jnum n =>
      simp only [elementError, Option.some_inj] at hbad
      simp only [List.nil_append, convertLoop, ← hbad]
    | jstr s =>
      simp only [elementError, Option.some_inj] at hbad
      simp only [List.nil_append, convertLoop, ← hbad]
    | jobj fs =>
      simp only [elementError, Option.some_inj] at hbad
      simp only [List.nil_append, convertLoop, ← hbad]
  | cons el pre' ih =>
    intro latest curr
    obtain ⟨h, tl, t, rfl, hint⟩ := goodElementB_elim (hpre el (by simp))
    have hpre' : ∀ x ∈ pre', goodElementB x = true := fun x hx => hpre x (by simp [hx])
    have ih' := ih hpre'
    rw [List.cons_append, convertLoop_cons_ok h tl (pre' ++ bad :: rest) latest curr t hint]
    by_cases h1 : 0 < t
    · rw [if_pos h1, ih' t t]
    · by_cases h2 : t < 0
      · rw [if_neg h1, if_pos h2, ih' latest (curr + |t|)]
      · rw [if_neg h1, if_neg h2, ih' latest curr]

/-- A zero-lead element is skipped: it leaves the loop state untouched and
emits nothing, wherever it occurs. -/
theorem convertLoop_skip_zero (pre rest : List JsonValue) (z : JsonValue)
    (tl : List JsonValue) (hz : pyIntOfJson z = .ok 0) :
    ∀ (latest curr : Int),
      convertLoop (pre ++ JsonValue.jarr (z :: tl) :: rest) latest curr =
        convertLoop (pre ++ rest) latest curr := by
  induction pre with
  | nil =>
    intro latest curr
    rw [List.nil_append, List.nil_append,
      convertLoop_cons_ok z tl rest latest curr 0 hz]
    norm_num
  | cons el pre' ih =>
    intro latest curr
    rw [List.cons_append, List.cons_append]
    cases el with
    | jarr xs =>
      cases xs with
      | nil => simp only [convertLoop]
      | cons h tl' =>
        cases hh : pyIntOfJson h with
        | ok t =>
          rw [convertLoop_cons_ok h tl' (pre' ++ JsonValue.jarr (z :: tl) :: rest) latest curr t hh,
            convertLoop_cons_ok h tl' (pre' ++ rest) latest curr t hh]
          simp only [ih]
        | error e =>
          rw [convertLoop_cons_err h tl' _ latest curr e hh,
            convertLoop_cons_err h tl' _ latest curr e hh]
    | jnull => simp only [convertLoop]
    | jbool b => simp only [convertLoop]
    | jnum n => simp only [convertLoop]
    | jstr s => simp only [convertLoop]
    | jobj fs => simp only [convertLoop]

/-- A failed `int()` conversion always raises ValueError or TypeError,
both inside the spec's malformed-input taxonomy. -/
theorem pyIntOfJson_error_malformed {h : JsonValue} {e : PyErr}
    (he : pyIntOfJson h = .error e) : isMalformedInput e = true := by
  cases h with
  | jnum n => exact absurd he (by simp [pyIntOfJson])
  | jbool b => exact absurd he (by simp [pyIntOfJson])
  | jstr s =>
    rw [pyIntOfJson] at he
    cases hp : pyStrToInt s with
    | some n => rw [hp] at he; exact absurd he (by simp)
    | none => rw [hp] at he; cases he; rfl
  | jnull => cases he; rfl
  | jarr xs => cases he; rfl
  | jobj fs => cases he; rfl

/-- Unfolding of `convert_delta_time_array` on a list argument. -/
theorem convert_jarr (elems : List JsonValue) (sort reverse : Bool) :
    convert_delta_time_array (.jarr elems) sort reverse =
      match convertLoop elems 0 0 with
      | .error e => .error e
      | .ok result => if sort then .ok (sortPoints reverse result) else .ok result := rfl

theorem sortPoints_perm (reverse : Bool) (l : List (List JsonValue)) :
    (sortPoints reverse l).Perm l := by
  cases reverse with
  | false => exact List.perm_insertionSort ptLE l
  | true => exact List.perm_insertionSort ptGE l

theorem sortPoints_sorted_asc (l : List (List JsonValue)) :
    (sortPoints false l).Pairwise ptLE :=
  List.sorted_insertionSort ptLE l

theorem sortPoints_sorted_desc (l : List (List JsonValue)) :
    (sortPoints true l).Pairwise ptGE :=
  List.sorted_insertionSort ptGE l

/-- Stability of the modelled sort: for every timestamp value, the points
carrying it appear in the sorted output exactly as they appear in the
unsorted input (same elements, same relative order). -/
theorem filter_sortPoints (reverse : Bool) (l : List (List JsonValue)) (k : Int) :
    (sortPoints reverse l).filter (fun p => decide (sortKey p = k)) =
      l.filter (fun p => decide (sortKey p = k)) := by
  have key_of_mem : ∀ x ∈ l.filter (fun p => decide (sortKey p = k)), sortKey x = k := by
    intro x hx
    exact of_decide_eq_true ((List.mem_filter.mp hx).2)
  have hself : (l.filter (fun p => decide (sortKey p = k))).filter
      (fun p => decide (sortKey p = k)) = l.filter (fun p => decide (sortKey p = k)) :=
    List.filter_eq_self.mpr (fun a ha => (List.mem_filter.mp ha).2)
  have hsub : List.Sublist (l.filter (fun p => decide (sortKey p = k))) l :=
    List.filter_sublist l
  cases reverse with
  | false =>
    have hc : (l.filter (fun p => decide (sortKey p = k))).Pairwise ptLE := by
      refine List.pairwise_of_forall_mem_list (fun a ha b hb => ?hle)
      rw [ptLE, key_of_mem a ha, key_of_mem b hb]
    have hbig : List.Sublist (l.filter (fun p => decide (sortKey p = k)))
        (l.insertionSort ptLE) := List.sublist_insertionSort hc hsub
    have h2 : List.Sublist (l.filter (fun p => decide (sortKey p = k)))
        ((l.insertionSort ptLE).filter (fun p => decide (sortKey p = k))) := by
      rw [← hself]
      exact hbig.filter (fun p => decide (sortKey p = k))
    have hlen : ((l.insertionSort ptLE).filter (fun p => decide (sortKey p = k))).length =
        (l.filter (fun p => decide (sortKey p = k))).length :=
      ((List.perm_insertionSort ptLE l).filter (fun p => decide (sortKey p = k))).length_eq
    exact (h2.eq_of_length hlen.symm).symm
  | true =>
    have hc : (l.filter (fun p => decide (sortKey p = k))).Pairwise ptGE := by
      refine List.pairwise_of_forall_mem_list (fun a ha b hb => ?hge)
      rw [ptGE, key_of_mem a ha, key_of_mem b hb]
    have hbig : List.Sublist (l.filter (fun p => decide (sortKey p = k)))
        (l.insertionSort ptGE) := List.sublist_insertionSort hc hsub
    have h2 : List.Sublist (l.filter (fun p => decide (sortKey p = k)))
        ((l.insertionSort ptGE).filter (fun p => decide (sortKey p = k))) := by
      rw [← hself]
      exact hbig.filter (fun p => decide (sortKey p = k))
    have hlen : ((l.insertionSort ptGE).filter (fun p => decide (sortKey p = k))).length =
        (l.filter (fun p => decide (sortKey p = k))).length :=
      ((List.perm_insertionSort ptGE l).filter (fun p => decide (sortKey p = k))).length_eq
    exact (h2.eq_of_length hlen.symm).symm

/-- Claim C2: for every encoded series that is a sequence of non-empty
sequences with integer-convertible leading fields, each emitted decoded
point is the resolved stamp followed by the input point's payload copied
verbatim, the stamp being the most recent positive leading value (anchor)
plus the sum of absolute values of the negative leading values since that
anchor up to and including the current point, accumulating from 0 when
deltas precede any anchor. -/
theorem C2_emitted_points {elems : List JsonValue} {pairs : List (Int × List JsonValue)}
    (hrel : List.Forall₂ ElemReads elems pairs) :
    convert_delta_time_array (.jarr elems) false false = .ok (emittedSpec [] pairs) := by
  have hloop : convertLoop elems 0 0 = .ok (emittedSpec [] pairs) :=
    convertLoop_emits hrel [] 0
  rw [convert_jarr, hloop]
  rfl

theorem C2_emitted_points_witness :
    convert_delta_time_array
      (.jarr [.jarr [.jnum 1000, .jnum 7], .jarr [.jnum (-10), .jnum 8],
        .jarr [.jnum 0, .jnum 9], .jarr [.jnum (-5)]]) false false =
      .ok (emittedSpec [] [(1000, [.jnum 7]), (-10, [.jnum 8]), (0, [.jnum 9]), (-5, [])]) :=
  C2_emitted_points
    (List.Forall₂.cons ⟨.jnum 1000, rfl, rfl⟩
      (List.Forall₂.cons ⟨.jnum (-10), rfl, rfl⟩
        (List.Forall₂.cons ⟨.jnum 0, rfl, rfl⟩
          (List.Forall₂.cons ⟨.jnum (-5), rfl, rfl⟩ List.Forall₂.nil))))

/-- Claim C5: the decoder raises a malformed-input error (ValueError or a
propagated `int()` conversion error) exactly for a non-sequence series, a
non-sequence element, or an unparseable leading field; the first such
error aborts the whole series with no partial results; an empty series
decodes to an empty output. -/
theorem C5_malformed_input :
    (∀ (v : JsonValue) (sort reverse : Bool), (∀ xs, v ≠ JsonValue.jarr xs) →
      convert_delta_time_array v sort reverse =
        .error (.valueError ("parent: list expected but found " ++ typeName v)) ∧
      isMalformedInput (.valueError ("parent: list expected but found " ++ typeName v)) = true) ∧
    (∀ (sort reverse : Bool), convert_delta_time_array (.jarr []) sort reverse = .ok []) ∧
    (∀ (elems : List JsonValue) (sort reverse : Bool),
      (∀ el ∈ elems, goodElementB el = true) →
      ∃ out, convert_delta_time_array (.jarr elems) sort reverse = .ok out) ∧
    (∀ (pre rest : List JsonValue) (bad : JsonValue) (sort reverse : Bool),
      (∀ el ∈ pre, goodElementB el = true) → (∀ xs, bad ≠ JsonValue.jarr xs) →
      convert_delta_time_array (.jarr (pre ++ bad :: rest)) sort reverse =
        .error (.valueError ("element: list expected but found " ++ typeName bad)) ∧
      isMalformedInput (.valueError ("element: list expected but found " ++ typeName bad)) = true) ∧
    (∀ (pre rest tl : List JsonValue) (h : JsonValue) (e : PyErr) (sort reverse : Bool),
      (∀ el ∈ pre, goodElementB el = true) → pyIntOfJson h = .error e →
      convert_delta_time_array (.jarr (pre ++ JsonValue.jarr (h :: tl) :: rest)) sort reverse =
        .error e ∧
      isMalformedInput e = true) := by
  refine ⟨?pa, ?pb, ?pc, ?pd, ?pe⟩
  case pa =>
    intro v sort reverse hv
    cases v with
    | jarr xs => exact absurd rfl (hv xs)
    | jnull => exact ⟨rfl, rfl⟩
    | jbool b => exact ⟨rfl, rfl⟩
    | jnum n => exact ⟨rfl, rfl⟩
    | jstr s => exact ⟨rfl, rfl⟩
    | jobj fs => exact ⟨rfl, rfl⟩
  case pb =>
    intro sort reverse
    cases sort <;> cases reverse <;> rfl
  case pc =>
    intro elems sort reverse hall
    obtain ⟨r, hr⟩ := convertLoop_total hall 0 0
    rw [convert_jarr, hr]
    cases sort with
    | false => exact ⟨r, rfl⟩
    | true => exact ⟨sortPoints reverse r, rfl⟩
  case pd =>
    intro pre rest bad sort reverse hpre hbad
    have herr : elementError bad =
        some (.valueError ("element: list expected but found " ++ typeName bad)) := by
      cases bad with
      | jarr xs => exact absurd rfl (hbad xs)
      | jnull => rfl
      | jbool b => rfl
      | jnum n => rfl
      | jstr s => rfl
      | jobj fs => rfl
    have hloop := convertLoop_first_error hpre herr rest 0 0
    rw [convert_jarr, hloop]
    exact ⟨rfl, rfl⟩
  case pe =>
    intro pre rest tl h e sort reverse hpre hh
    have herr : elementError (JsonValue.jarr (h :: tl)) = some e := by
      simp only [elementError, hh]
    have hloop := convertLoop_first_error hpre herr rest 0 0
    rw [convert_jarr, hloop]
    exact ⟨rfl, pyIntOfJson_error_malformed hh⟩

theorem C5_malformed_input_witness :
    convert_delta_time_array .jnull true false =
      .error (.valueError "parent: list expected but found NoneType") ∧
    convert_delta_time_array (.jarr []) true false = .ok [] ∧
    (∃ out, convert_delta_time_array (.jarr [.jarr [.jnum 5]]) true false = .ok out) ∧
    convert_delta_time_array (.jarr [.jnum 1, .jnum 2, .jnum 3]) true false =
      .error (.valueError "element: list expected but found int") ∧
    convert_delta_time_array (.jarr [.jarr [.jstr "one"]]) true false =
      .error (.valueError "invalid literal for int() with base 10: one") := by
  refine ⟨?w1, ?w2, ?w3, ?w4, ?w5⟩
  case w1 => exact (C5_malformed_input.1 .jnull true false (fun xs h => by cases h)).1
  case w2 => exact C5_malformed_input.2.1 true false
  case w3 =>
    exact C5_malformed_input.2.2.1 [.jarr [.jnum 5]] true false (by decide)
  case w4 =>
    exact (C5_malformed_input.2.2.2.1 [] [.jnum 2, .jnum 3] (.jnum 1) true false
      (by intro el hel; cases hel) (fun xs h => by cases h)).1
  case w5 =>
    exact (C5_malformed_input.2.2.2.2 [] [] [] (.jstr "one")
      (.valueError "invalid literal for int() with base 10: one") true false
      (by intro el hel; cases hel) rfl).1

/-- Claim C6: an encoded point whose leading field equals zero is skipped
entirely — no decoded point is emitted for it, no error is raised, and the
running stamp is untouched — and in particular decoding
`[[1],[0],[-1],[-1]]` yields exactly the 3 points with timestamps 1,2,3. -/
theorem C6_zero_skipped :
    (∀ (pre rest tl : List JsonValue) (z : JsonValue) (latest curr : Int),
      pyIntOfJson z = .ok 0 →
      convertLoop (pre ++ JsonValue.jarr (z :: tl) :: rest) latest curr =
        convertLoop (pre ++ rest) latest curr) ∧
    convert_delta_time_array
      (.jarr [.jarr [.jnum 1], .jarr [.jnum 0], .jarr [.jnum (-1)], .jarr [.jnum (-1)]])
      true false = .ok [[.jnum 1], [.jnum 2], [.jnum 3]] := by
  constructor
  · intro pre rest tl z latest curr hz
    exact convertLoop_skip_zero pre rest z tl hz latest curr
  · rfl

theorem C6_zero_skipped_witness :
    convertLoop [JsonValue.jarr [.jnum 5, .jnum 9], .jarr [.jnum 0, .jnum 666],
        .jarr [.jnum (-1)]] 0 0 =
      convertLoop [JsonValue.jarr [.jnum 5, .jnum 9], .jarr [.jnum (-1)]] 0 0 ∧
    convert_delta_time_array
      (.jarr [.jarr [.jnum 1], .jarr [.jnum 0], .jarr [.jnum (-1)], .jarr [.jnum (-1)]])
      true false = .ok [[.jnum 1], [.jnum 2], [.jnum 3]] :=
  ⟨C6_zero_skipped.1 [JsonValue.jarr [.jnum 5, .jnum 9]] [JsonValue.jarr [.jnum (-1)]]
      [JsonValue.jnum 666] (.jnum 0) 0 0 rfl,
    C6_zero_skipped.2⟩

/-- Claim C7: with `sort=false` the decoder returns the decode-order
points unchanged (whatever `reverse` is); with `sort=true` it returns a
stable sort of them by resolved timestamp — a permutation, non-decreasing
by timestamp (non-increasing when `reverse`), with the points at each
timestamp kept in their decode-order relative order. -/
theorem C7_sorting (s : JsonValue) (base : List (List JsonValue))
    (hbase : convert_delta_time_array s false false = .ok base) (reverse : Bool) :
    convert_delta_time_array s false reverse = .ok base ∧
    convert_delta_time_array s true reverse = .ok (sortPoints reverse base) ∧
    (sortPoints reverse base).Perm base ∧
    (reverse = false → (sortPoints reverse base).Pairwise ptLE) ∧
    (reverse = true → (sortPoints reverse base).Pairwise ptGE) ∧
    (∀ k : Int, (sortPoints reverse base).filter (fun p => decide (sortKey p = k)) =
      base.filter (fun p => decide (sortKey p = k))) := by
  cases s with
  | jarr elems =>
    rw [convert_jarr] at hbase
    cases hloop : convertLoop elems 0 0 with
    | error e => rw [hloop] at hbase; cases hbase
    | ok r =>
      rw [hloop] at hbase
      have hbr : base = r := by
        have h2 : (Except.ok r : Except PyErr (List (List JsonValue))) = .ok base := hbase
        cases h2
        rfl
      subst hbr
      refine ⟨by rw [convert_jarr, hloop]; rfl, by rw [convert_jarr, hloop]; rfl,
        sortPoints_perm reverse base, ?psa, ?psd, filter_sortPoints reverse base⟩
      case psa =>
        intro hrev
        subst hrev
        exact sortPoints_sorted_asc base
      case psd =>
        intro hrev
        subst hrev
        exact sortPoints_sorted_desc base
  | jnull => cases hbase
  | jbool b => cases hbase
  | jnum n => cases hbase
  | jstr st => cases hbase
  | jobj fs => cases hbase

theorem C7_sorting_witness :
    convert_delta_time_array
        (.jarr [.jarr [.jnum 1030, .jnum 1], .jarr [.jnum (-10), .jnum 2],
          .jarr [.jnum 1000, .jnum 3]]) false true =
      .ok [[.jnum 1030, .jnum 1], [.jnum 1040, .jnum 2], [.jnum 1000, .jnum 3]] ∧
    convert_delta_time_array
        (.jarr [.jarr [.jnum 1030, .jnum 1], .jarr [.jnum (-10), .jnum 2],
          .jarr [.jnum 1000, .jnum 3]]) true true =
      .ok (sortPoints true [[.jnum 1030, .jnum 1], [.jnum 1040, .jnum 2],
        [.jnum 1000, .jnum 3]]) ∧
    (sortPoints true [[.jnum 1030, .jnum 1], [.jnum 1040, .jnum 2],
      [.jnum 1000, .jnum 3]]).Perm
      [[.jnum 1030, .jnum 1], [.jnum 1040, .jnum 2], [.jnum 1000, .jnum 3]] ∧
    (true = false → (sortPoints true [[.jnum 1030, .jnum 1], [.jnum 1040, .jnum 2],
      [.jnum 1000, .jnum 3]]).Pairwise ptLE) ∧
    (true = true → (sortPoints true [[.jnum 1030, .jnum 1], [.jnum 1040, .jnum 2],
      [.jnum 1000, .jnum 3]]).Pairwise ptGE) ∧
    (∀ k : Int, ((sortPoints true [[.jnum 1030, .jnum 1], [.jnum 1040, .jnum 2],
      [.jnum 1000, .jnum 3]]).filter (fun p => decide (sortKey p = k))) =
      ([[.jnum 1030, .jnum 1], [.jnum 1040, .jnum 2],
        [.jnum 1000, .jnum 3]].filter (fun p => decide (sortKey p = k)))) :=
  by
  refine C7_sorting
    (.jarr [.jarr [.jnum 1030, .jnum 1], .jarr [.jnum (-10), .jnum 2],
      .jarr [.jnum 1000, .jnum 3]])
    [[.jnum 1030, .jnum 1], [.jnum 1040, .jnum 2], [.jnum 1000, .jnum 3]] ?hb true
  rfl

/-- Claim C10: an empty-sequence element makes the decoder fail with an
IndexError when its leading field is read, an error distinct from the
malformed-input ValueError/TypeError taxonomy of the spec. -/
theorem C10_empty_element (pre rest : List JsonValue) (sort reverse : Bool)
    (hpre : ∀ el ∈ pre, goodElementB el = true) :
    convert_delta_time_array (.jarr (pre ++ JsonValue.jarr [] :: rest)) sort reverse =
      .error (.indexError "list index out of range") ∧
    elementError (JsonValue.jarr []) = some (.indexError "list index out of range") ∧
    isMalformedInput (.indexError "list index out of range") = false := by
  have hloop := convertLoop_first_error hpre
    (rfl : elementError (JsonValue.jarr []) = some (.indexError "list index out of range"))
    rest 0 0
  exact ⟨by rw [convert_jarr, hloop], rfl, rfl⟩

theorem C10_empty_element_witness :
    convert_delta_time_array (.jarr ([.jarr [.jnum 7]] ++ JsonValue.jarr [] ::
        [.jarr [.jnum 8]])) true false =
      .error (.indexError "list index out of range") ∧
    elementError (JsonValue.jarr []) = some (.indexError "list index out of range") ∧
    isMalformedInput (.indexError "list index out of range") = false :=
  C10_empty_element [.jarr [.jnum 7]] [.jarr [.jnum 8]] true false (by decide)

/-- Claim C1: with duplicate filtering enabled, a point whose resolved
timestamp equals the immediately preceding emitted point's timestamp is
suppressed in decode order before sorting, regardless of payload; in
particular the documented eight-point example decodes to the six points
`[[1000,1],[1010,2],[1020,3],[1030,666],[1040,4],[1050,5]]`. -/
theorem C1_duplicate_filter :
    (∀ (p q : List JsonValue) (rest : List (List JsonValue)),
      sortKey q = sortKey p →
      filterDuplicatePoints (p :: q :: rest) = filterDuplicatePoints (p :: rest)) ∧
    convert_delta_time_array_fd
      (.jarr [.jarr [.jnum 1000, .jnum 1], .jarr [.jnum (-10), .jnum 2],
        .jarr [.jnum (-10), .jnum 3], .jarr [.jnum 1030, .jnum 666],
        .jarr [.jnum 1030, .jnum 667], .jarr [.jnum 1030, .jnum 668],
        .jarr [.jnum (-10), .jnum 4], .jarr [.jnum (-10), .jnum 5]]) true false true =
      .ok [[.jnum 1000, .jnum 1], [.jnum 1010, .jnum 2], [.jnum 1020, .jnum 3],
        [.jnum 1030, .jnum 666], [.jnum 1040, .jnum 4], [.jnum 1050, .jnum 5]] := by
  constructor
  · intro p q rest h
    simp [filterDuplicatePoints, filterDupAux, h]
  · rfl

theorem C1_duplicate_filter_witness :
    filterDuplicatePoints [[JsonValue.jnum 5, JsonValue.jnum 1],
        [JsonValue.jnum 5, JsonValue.jnum 2]] =
      filterDuplicatePoints [[JsonValue.jnum 5, JsonValue.jnum 1]] ∧
    convert_delta_time_array_fd
      (.jarr [.jarr [.jnum 1000, .jnum 1], .jarr [.jnum (-10), .jnum 2],
        .jarr [.jnum (-10), .jnum 3], .jarr [.jnum 1030, .jnum 666],
        .jarr [.jnum 1030, .jnum 667], .jarr [.jnum 1030, .jnum 668],
        .jarr [.jnum (-10), .jnum 4], .jarr [.jnum (-10), .jnum 5]]) true false true =
      .ok [[.jnum 1000, .jnum 1], [.jnum 1010, .jnum 2], [.jnum 1020, .jnum 3],
        [.jnum 1030, .jnum 666], [.jnum 1040, .jnum 4], [.jnum 1050, .jnum 5]] :=
  ⟨C1_duplicate_filter.1 [JsonValue.jnum 5, JsonValue.jnum 1]
      [JsonValue.jnum 5, JsonValue.jnum 2] [] rfl,
    C1_duplicate_filter.2⟩

/-- The processing of one key/value pair of the `filter_pii` loop:
`.inl sub` is a short-circuit substitute for the whole mapping, `.inr v2`
the redacted value written back under the key. -/
def fieldStep (k : String) : JsonValue → Except PyErr (JsonValue ⊕ JsonValue)
  | .jobj m =>
    match pii_dicts.lookup k with
    | some sub => .ok (.inl sub)
    | none =>
      match filter_pii (.jobj m) with
      | .error e => .error e
      | .ok v2 => .ok (.inr v2)
  | .jarr xs =>
    match pii_lists.lookup k with
    | some sub => .ok (.inl sub)
    | none =>
      match filterElems xs with
      | .error e => .error e
      | .ok xs2 => .ok (.inr (.jarr xs2))
  | v => .ok (.inr (if k ∈ pii_keys then JsonValue.jstr "***" else v))

/-- The field loop factors through `fieldStep` on its head entry. -/
theorem filterFields_cons (k : String) (v : JsonValue) (rest : List (String × JsonValue)) :
    filterFields ((k, v) :: rest) =
      match fieldStep k v with
      | .error e => .error e
      | .ok (.inl sub) => .ok (.inl sub)
      | .ok (.inr v2) =>
        match filterFields rest with
        | .error e => .error e
        | .ok (.inl sub) => .ok (.inl sub)
        | .ok (.inr r2) => .ok (.inr ((k, v2) :: r2)) := by
  cases v with
  | jobj m =>
    cases hlk : pii_dicts.lookup k with
    | some sub => simp only [filterFields, fieldStep, hlk]
    | none =>
      cases hfp : filter_pii (.jobj m) with
      | error e => simp only [filterFields, fieldStep, hlk, hfp]
      | ok v2 => simp only [filterFields, fieldStep, hlk, hfp]
  | jarr xs =>
    cases hlk : pii_lists.lookup k with
    | some sub => simp only [filterFields, fieldStep, hlk]
    | none =>
      cases hfe : filterElems xs with
      | error e => simp only [filterFields, fieldStep, hlk, hfe]
      | ok xs2 => simp only [filterFields, fieldStep, hlk, hfe]
  | jnull => rfl
  | jbool b => rfl
  | jnum n => rfl
  | jstr s => rfl

/-- The field loop over a concatenation: a short-circuit or error in the
first part hides the second part entirely. -/
theorem filterFields_append (a b : List (String × JsonValue)) :
    filterFields (a ++ b) =
      match filterFields a with
      | .error e => .error e
      | .ok (.inl sub) => .ok (.inl sub)
      | .ok (.inr a2) =>
        match filterFields b with
        | .error e => .error e
        | .ok (.inl sub) => .ok (.inl sub)
        | .ok (.inr b2) => .ok (.inr (a2 ++ b2)) := by
  induction a with
  | nil =>
    show filterFields b = _
    cases hb : filterFields b with
    | error e => rfl
    | ok s =>
      cases s with
      | inl sub => rfl
      | inr b2 => rfl
  | cons f a' ih =>
    obtain ⟨k, v⟩ := f
    rw [List.cons_append, filterFields_cons, filterFields_cons, ih]
    cases hstep : fieldStep k v with
    | error e => rfl
    | ok s =>
      cases s with
      | inl sub => rfl
      | inr v2 =>
        cases ha' : filterFields a' with
        | error e => rfl
        | ok s2 =>
          cases s2 with
          | inl sub => rfl
          | inr a2 =>
            cases hb : filterFields b with
            | error e => rfl
            | ok s3 =>
              cases s3 with
              | inl sub => rfl
              | inr b2 => rfl

/-- Inversion of a hit in the `__pii_dicts__` table. -/
theorem pii_dicts_lookup {k : String} {s : JsonValue} (h : pii_dicts.lookup k = some s) :
    k = "sim_id" ∧
    s = .jobj [("sim_id", .jobj [("operator", .jstr "***"), ("id", .jstr "***")])] := by
  rw [pii_dicts] at h
  cases hbeq : k == "sim_id" with
  | true =>
    refine ⟨eq_of_beq hbeq, ?hs⟩
    rw [List.lookup, hbeq] at h
    exact (Option.some_inj.mp h).symm
  | false =>
    rw [List.lookup, hbeq, List.lookup] at h
    cases h

/-- Inversion of a hit in the `__pii_lists__` table. -/
theorem pii_lists_lookup {k : String} {s : JsonValue} (h : pii_lists.lookup k = some s) :
    k = "loc" ∧ s = .jobj [("loc", .jarr [])] := by
  rw [pii_lists] at h
  cases hbeq : k == "loc" with
  | true =>
    refine ⟨eq_of_beq hbeq, ?hs⟩
    rw [List.lookup, hbeq] at h
    exact (Option.some_inj.mp h).symm
  | false =>
    rw [List.lookup, hbeq, List.lookup] at h
    cases h

/-- Claim C3: a mapping holding a sensitive-nested-mapping key with a
mapping value (or a sensitive-sequence key with a sequence value), reached
after siblings that neither short-circuit nor fail, redacts to that
policy's substitute for the whole mapping, discarding every sibling; the
concrete fixture has a non-sensitive sibling before and after the
sensitive key. -/
theorem C3_short_circuit :
    (∀ (pre rest : List (String × JsonValue)) (pre2 : List (String × JsonValue))
      (k : String) (m : List (String × JsonValue)) (sub : JsonValue),
      filterFields pre = .ok (.inr pre2) → pii_dicts.lookup k = some sub →
      filter_pii (.jobj (pre ++ (k, .jobj m) :: rest)) = .ok sub) ∧
    (∀ (pre rest : List (String × JsonValue)) (pre2 : List (String × JsonValue))
      (k : String) (xs : List JsonValue) (sub : JsonValue),
      filterFields pre = .ok (.inr pre2) → pii_lists.lookup k = some sub →
      filter_pii (.jobj (pre ++ (k, .jarr xs) :: rest)) = .ok sub) ∧
    filter_pii (.jobj [("name", .jstr "dev"), ("sim_id", .jobj [("operator", .jstr "MTS")]),
      ("other", .jnum 5)]) =
      .ok (.jobj [("sim_id", .jobj [("operator", .jstr "***"), ("id", .jstr "***")])]) := by
  refine ⟨?pd, ?pl, rfl⟩
  case pd =>
    intro pre rest pre2 k m sub hpre hk
    have hstep : fieldStep k (.jobj m) = .ok (.inl sub) := by
      simp only [fieldStep, hk]
    have hff : filterFields (pre ++ (k, .jobj m) :: rest) = .ok (.inl sub) := by
      rw [filterFields_append, hpre, filterFields_cons, hstep]
    simp only [filter_pii, hff]
  case pl =>
    intro pre rest pre2 k xs sub hpre hk
    have hstep : fieldStep k (.jarr xs) = .ok (.inl sub) := by
      simp only [fieldStep, hk]
    have hff : filterFields (pre ++ (k, .jarr xs) :: rest) = .ok (.inl sub) := by
      rw [filterFields_append, hpre, filterFields_cons, hstep]
    simp only [filter_pii, hff]

theorem C3_short_circuit_witness :
    filter_pii (.jobj ([("name", .jstr "dev")] ++ ("sim_id", .jobj [("operator", .jstr "MTS")]) ::
        [("other", .jnum 5)])) =
      .ok (.jobj [("sim_id", .jobj [("operator", .jstr "***"), ("id", .jstr "***")])]) ∧
    filter_pii (.jobj ([("name", .jstr "dev")] ++ ("loc", .jarr [.jstr "55.7,37.6"]) ::
        [("other", .jnum 5)])) =
      .ok (.jobj [("loc", .jarr [])]) ∧
    filter_pii (.jobj [("name", .jstr "dev"), ("sim_id", .jobj [("operator", .jstr "MTS")]),
      ("other", .jnum 5)]) =
      .ok (.jobj [("sim_id", .jobj [("operator", .jstr "***"), ("id", .jstr "***")])]) :=
  ⟨C3_short_circuit.1 [("name", .jstr "dev")] [("other", .jnum 5)] [("name", .jstr "dev")]
      "sim_id" [("operator", .jstr "MTS")] _ rfl rfl,
    C3_short_circuit.2.1 [("name", .jstr "dev")] [("other", .jnum 5)] [("name", .jstr "dev")]
      "loc" [.jstr "55.7,37.6"] _ rfl rfl,
    C3_short_circuit.2.2⟩

/-- Claim C4 (assessed against the code): the redactor does pass scalars
through unchanged, but a sequence node reached directly raises
AttributeError — Python lists have no `items()` method — both at top level
and for a list nested directly inside a list value, contradicting the
claim that sequences are processed and no error is ever surfaced. -/
theorem C4_redactor_list_raises :
    filter_pii (.jarr [.jnum 1]) =
      .error (.attributeError "list object has no attribute items") ∧
    filter_pii (.jobj [("a", .jarr [.jarr [.jnum 1]])]) =
      .error (.attributeError "list object has no attribute items") ∧
    filter_pii .jnull = .ok .jnull ∧
    filter_pii (.jstr "x") = .ok (.jstr "x") ∧
    filter_pii (.jnum 3) = .ok (.jnum 3) ∧
    filter_pii (.jbool true) = .ok (.jbool true) :=
  ⟨rfl, rfl, rfl, rfl, rfl, rfl⟩

/-- Claim C9: when the field loop completes without error or
short-circuit, keys are preserved and every scalar-valued entry (neither
mapping nor sequence) is exactly masked when its key is sensitive and
untouched otherwise. -/
theorem C9_scalar_masking (fields fields2 : List (String × JsonValue))
    (h : filterFields fields = .ok (.inr fields2)) :
    filter_pii (.jobj fields) = .ok (.jobj fields2) ∧
    List.Forall₂ (fun a b => a.1 = b.1 ∧
      ((∀ m, a.2 ≠ JsonValue.jobj m) → (∀ xs, a.2 ≠ JsonValue.jarr xs) →
        b.2 = if a.1 ∈ pii_keys then JsonValue.jstr "***" else a.2)) fields fields2 := by
  refine ⟨by simp only [filter_pii, h], ?pf⟩
  induction fields generalizing fields2 with
  | nil =>
    have h0 : (Except.ok (.inr [] : JsonValue ⊕ List (String × JsonValue)) :
        Except PyErr (JsonValue ⊕ List (String × JsonValue))) = .ok (.inr fields2) := h
    cases h0
    exact List.Forall₂.nil
  | cons f rest ih =>
    obtain ⟨k, v⟩ := f
    rw [filterFields_cons] at h
    cases hstep : fieldStep k v with
    | error e => rw [hstep] at h; cases h
    | ok s =>
      rw [hstep] at h
      cases s with
      | inl sub => cases h
      | inr v2 =>
        cases hrest : filterFields rest with
        | error e => rw [hrest] at h; cases h
        | ok s2 =>
          rw [hrest] at h
          cases s2 with
          | inl sub => cases h
          | inr r2 =>
            have h2 : (Except.ok (.inr ((k, v2) :: r2) :
                JsonValue ⊕ List (String × JsonValue)) :
                Except PyErr (JsonValue ⊕ List (String × JsonValue))) = .ok (.inr fields2) := h
            cases h2
            refine List.Forall₂.cons ⟨rfl, ?hsc⟩ (ih r2 hrest)
            intro hm hxs
            cases v with
            | jobj m => exact absurd rfl (hm m)
            | jarr xs => exact absurd rfl (hxs xs)
            | jnull => exact (Sum.inr.inj (Except.ok.inj hstep)).symm
            | jbool b => exact (Sum.inr.inj (Except.ok.inj hstep)).symm
            | jnum n => exact (Sum.inr.inj (Except.ok.inj hstep)).symm
            | jstr st => exact (Sum.inr.inj (Except.ok.inj hstep)).symm

theorem C9_scalar_masking_witness :
    filter_pii (.jobj [("password", .jstr "hunter2"), ("name", .jstr "dev")]) =
      .ok (.jobj [("password", .jstr "***"), ("name", .jstr "dev")]) ∧
    List.Forall₂ (fun a b => a.1 = b.1 ∧
      ((∀ m, a.2 ≠ JsonValue.jobj m) → (∀ xs, a.2 ≠ JsonValue.jarr xs) →
        b.2 = if a.1 ∈ pii_keys then JsonValue.jstr "***" else a.2))
      [("password", .jstr "hunter2"), ("name", .jstr "dev")]
      [("password", .jstr "***"), ("name", .jstr "dev")] :=
  C9_scalar_masking [("password", .jstr "hunter2"), ("name", .jstr "dev")]
    [("password", .jstr "***"), ("name", .jstr "dev")] rfl

/-- The mask token as a value. -/
def isMask : JsonValue → Bool
  | .jstr s => s == "***"
  | _ => false

/-- Recognizer of the two fixed substitute mappings of the policy tables. -/
def isSubObj : List (String × JsonValue) → Bool
  | [(k, .jobj [(k1, .jstr a), (k2, .jstr b)])] =>
    k == "sim_id" && (k1 == "operator" && (k2 == "id" && (a == "***" && b == "***")))
  | [(k, .jarr xs)] => k == "loc" && xs.isEmpty
  | _ => false

mutual

/-- A value the redactor leaves unchanged: a scalar, a substitute
mapping, or a mapping all of whose entries are redacted in place. -/
def redactedB : JsonValue → Bool
  | .jobj fields => redactedFieldsB fields || isSubObj fields
  | .jarr _ => false
  | _ => true

/-- Entry list of a mapping the redactor leaves unchanged: nested mappings
carry no sensitive-mapping key and are themselves redacted, sequences
carry no sensitive-sequence key and have redacted elements, scalars under
sensitive keys are already masked. -/
def redactedFieldsB : List (String × JsonValue) → Bool
  | [] => true
  | (k, v) :: rest =>
    (match v with
     | .jobj m => (pii_dicts.lookup k).isNone && redactedB (.jobj m)
     | .jarr xs => (pii_lists.lookup k).isNone && redactedElemsB xs
     | v => !(decide (k ∈ pii_keys)) || isMask v) && redactedFieldsB rest

/-- Elements of a sequence the redactor leaves unchanged. -/
def redactedElemsB : List JsonValue → Bool
  | [] => true
  | x :: rest => redactedB x && redactedElemsB rest

end

/-- One redacted entry, as a standalone reading of the head conjunct of
`redactedFieldsB`. -/
def fieldOkB (k : String) : JsonValue → Bool
  | .jobj m => (pii_dicts.lookup k).isNone && redactedB (.jobj m)
  | .jarr xs => (pii_lists.lookup k).isNone && redactedElemsB xs
  | v => !(decide (k ∈ pii_keys)) || isMask v

theorem redactedFieldsB_cons (k : String) (v : JsonValue)
    (rest : List (String × JsonValue)) :
    redactedFieldsB ((k, v) :: rest) = (fieldOkB k v && redactedFieldsB rest) := by
  cases v <;> rfl

theorem redactedB_simSub :
    redactedB (.jobj [("sim_id", .jobj [("operator", .jstr "***"), ("id", .jstr "***")])]) =
      true := rfl

theorem redactedB_locSub : redactedB (.jobj [("loc", .jarr [])]) = true := rfl

/-- A short-circuit value produced by `fieldStep` comes from one of the
two policy tables. -/
theorem fieldStep_inl {k : String} {v s : JsonValue} (h : fieldStep k v = .ok (.inl s)) :
    pii_dicts.lookup k = some s ∨ pii_lists.lookup k = some s := by
  cases v with
  | jobj m =>
    cases hlk : pii_dicts.lookup k with
    | some sub =>
      simp only [fieldStep, hlk] at h
      have hsub : sub = s := Sum.inl.inj (Except.ok.inj h)
      exact Or.inl (congrArg some hsub)
    | none =>
      simp only [fieldStep, hlk] at h
      cases hfp : filter_pii (.jobj m) with
      | error e => rw [hfp] at h; cases h
      | ok v2 => rw [hfp] at h; exact Sum.noConfusion (Except.ok.inj h)
  | jarr xs =>
    cases hlk : pii_lists.lookup k with
    | some sub =>
      simp only [fieldStep, hlk] at h
      have hsub : sub = s := Sum.inl.inj (Except.ok.inj h)
      exact Or.inr (congrArg some hsub)
    | none =>
      simp only [fieldStep, hlk] at h
      cases hfe : filterElems xs with
      | error e => rw [hfe] at h; cases h
      | ok xs2 => rw [hfe] at h; exact Sum.noConfusion (Except.ok.inj h)
  | jnull => exact Sum.noConfusion (Except.ok.inj h)
  | jbool b => exact Sum.noConfusion (Except.ok.inj h)
  | jnum n => exact Sum.noConfusion (Except.ok.inj h)
  | jstr st => exact Sum.noConfusion (Except.ok.inj h)

/-- A short-circuit value of the whole field loop is a substitute, and
substitutes are redacted fixed points. -/
theorem filterFields_inl_redacted {l : List (String × JsonValue)} {s : JsonValue}
    (h : filterFields l = .ok (.inl s)) : redactedB s = true := by
  induction l with
  | nil => cases h
  | cons f rest ih =>
    obtain ⟨k, v⟩ := f
    rw [filterFields_cons] at h
    cases hstep : fieldStep k v with
    | error e => rw [hstep] at h; cases h
    | ok s2 =>
      rw [hstep] at h
      cases s2 with
      | inl sub =>
        have hs : sub = s := Sum.inl.inj (Except.ok.inj h)
        subst hs
        cases fieldStep_inl hstep with
        | inl hd => rw [(pii_dicts_lookup hd).2]; exact redactedB_simSub
        | inr hl => rw [(pii_lists_lookup hl).2]; exact redactedB_locSub
      | inr v2 =>
        cases hrest : filterFields rest with
        | error e => rw [hrest] at h; cases h
        | ok s3 =>
          rw [hrest] at h
          cases s3 with
          | inl sub =>
            have hs : sub = s := Sum.inl.inj (Except.ok.inj h)
            subst hs
            exact ih hrest
          | inr r2 => exact Sum.noConfusion (Except.ok.inj h)

/-- A short-circuit value of the whole field loop is one of the two
substitute mappings. -/
theorem filterFields_inl_subst {l : List (String × JsonValue)} {s : JsonValue}
    (h : filterFields l = .ok (.inl s)) :
    s = .jobj [("sim_id", .jobj [("operator", .jstr "***"), ("id", .jstr "***")])] ∨
    s = .jobj [("loc", .jarr [])] := by
  induction l with
  | nil => cases h
  | cons f rest ih =>
    obtain ⟨k, v⟩ := f
    rw [filterFields_cons] at h
    cases hstep : fieldStep k v with
    | error e => rw [hstep] at h; cases h
    | ok s2 =>
      rw [hstep] at h
      cases s2 with
      | inl sub =>
        have hs : sub = s := Sum.inl.inj (Except.ok.inj h)
        subst hs
        cases fieldStep_inl hstep with
        | inl hd => exact Or.inl (pii_dicts_lookup hd).2
        | inr hl => exact Or.inr (pii_lists_lookup hl).2
      | inr v2 =>
        cases hrest : filterFields rest with
        | error e => rw [hrest] at h; cases h
        | ok s3 =>
          rw [hrest] at h
          cases s3 with
          | inl sub =>
            have hs : sub = s := Sum.inl.inj (Except.ok.inj h)
            subst hs
            exact ih hrest
          | inr r2 => exact Sum.noConfusion (Except.ok.inj h)

/-- A successful redaction of a mapping returns a mapping. -/
theorem filter_pii_jobj_shape {m : List (String × JsonValue)} {v2 : JsonValue}
    (h : filter_pii (.jobj m) = .ok v2) : ∃ f2, v2 = .jobj f2 := by
  cases hff : filterFields m with
  | error e => simp only [filter_pii, hff] at h; exact Except.noConfusion h
  | ok s =>
    cases s with
    | inl sub =>
      simp only [filter_pii, hff] at h
      have hs : sub = v2 := Except.ok.inj h
      subst hs
      cases filterFields_inl_subst hff with
      | inl heq => exact ⟨_, heq⟩
      | inr heq => exact ⟨_, heq⟩
    | inr l2 =>
      simp only [filter_pii, hff] at h
      exact ⟨l2, (Except.ok.inj h).symm⟩

/-- Every successful output of the redactor is a redacted fixed point
(soundness half of idempotence), proved by strong induction on the size
of the input. -/
theorem redact_sound : ∀ n : Nat,
    (∀ v : JsonValue, sizeOf v ≤ n → ∀ y, filter_pii v = .ok y → redactedB y = true) ∧
    (∀ l : List (String × JsonValue), sizeOf l ≤ n →
      ∀ l2, filterFields l = .ok (.inr l2) → redactedFieldsB l2 = true) ∧
    (∀ xs : List JsonValue, sizeOf xs ≤ n →
      ∀ xs2, filterElems xs = .ok xs2 → redactedElemsB xs2 = true) := by
  intro n
  induction n using Nat.strong_induction_on with
  | _ n ih =>
    refine ⟨?pv, ?pl, ?pe⟩
    case pv =>
      intro v hle y hy
      cases v with
      | jobj fields =>
        have hlt : sizeOf fields < n := by
          have hs : sizeOf (JsonValue.jobj fields) = 1 + sizeOf fields := by simp
          rw [hs] at hle
          omega
        cases hff : filterFields fields with
        | error e => simp only [filter_pii, hff] at hy; exact Except.noConfusion hy
        | ok s =>
          cases s with
          | inl sub =>
            simp only [filter_pii, hff] at hy
            have hs : sub = y := Except.ok.inj hy
            subst hs
            exact filterFields_inl_redacted hff
          | inr l2 =>
            simp only [filter_pii, hff] at hy
            have hs : JsonValue.jobj l2 = y := Except.ok.inj hy
            subst hs
            have hred := (ih (sizeOf fields) hlt).2.1 fields le_rfl l2 hff
            simp only [redactedB, hred, Bool.true_or]
      | jarr xs => simp only [filter_pii] at hy; exact Except.noConfusion hy
      | jnull => have hs : JsonValue.jnull = y := Except.ok.inj hy; subst hs; rfl
      | jbool b => have hs : JsonValue.jbool b = y := Except.ok.inj hy; subst hs; rfl
      | jnum nn => have hs : JsonValue.jnum nn = y := Except.ok.inj hy; subst hs; rfl
      | jstr st => have hs : JsonValue.jstr st = y := Except.ok.inj hy; subst hs; rfl
    case pl =>
      intro l hle l2 h2
      cases l with
      | nil =>
        have h0 : (Except.ok (.inr [] : JsonValue ⊕ List (String × JsonValue)) :
            Except PyErr (JsonValue ⊕ List (String × JsonValue))) = .ok (.inr l2) := h2
        cases h0
        rfl
      | cons f rest =>
        obtain ⟨k, v⟩ := f
        have hsz : sizeOf ((k, v) :: rest) = 1 + (1 + sizeOf k + sizeOf v) + sizeOf rest := by
          simp
        rw [hsz] at hle
        have hltrest : sizeOf rest < n := by omega
        have hltv : sizeOf v < n := by omega
        rw [filterFields_cons] at h2
        cases hstep : fieldStep k v with
        | error e => rw [hstep] at h2; exact Except.noConfusion h2
        | ok s =>
          rw [hstep] at h2
          cases s with
          | inl sub => exact Sum.noConfusion (Except.ok.inj h2)
          | inr v2 =>
            cases hrest : filterFields rest with
            | error e => rw [hrest] at h2; exact Except.noConfusion h2
            | ok s2 =>
              rw [hrest] at h2
              cases s2 with
              | inl sub => exact Sum.noConfusion (Except.ok.inj h2)
              | inr r2 =>
                have hl2 : (k, v2) :: r2 = l2 := Sum.inr.inj (Except.ok.inj h2)
                subst hl2
                rw [redactedFieldsB_cons]
                rw [Bool.and_eq_true]
                refine ⟨?hok, (ih (sizeOf rest) hltrest).2.1 rest le_rfl r2 hrest⟩
                case hok =>
                  cases v with
                  | jobj m =>
                    cases hlk : pii_dicts.lookup k with
                    | some sub =>
                      simp only [fieldStep, hlk] at hstep
                      exact Sum.noConfusion (Except.ok.inj hstep)
                    | none =>
                      simp only [fieldStep, hlk] at hstep
                      cases hfp : filter_pii (.jobj m) with
                      | error e => rw [hfp] at hstep; exact Except.noConfusion hstep
                      | ok v2' =>
                        rw [hfp] at hstep
                        have hv2 : v2' = v2 := Sum.inr.inj (Except.ok.inj hstep)
                        subst hv2
                        obtain ⟨f2, rfl⟩ := filter_pii_jobj_shape hfp
                        have hredv2 : redactedB (.jobj f2) = true :=
                          (ih (sizeOf (JsonValue.jobj m)) hltv).1 (.jobj m) le_rfl _ hfp
                        simp only [fieldOkB, hlk, Option.isNone_none, Bool.true_and]
                        exact hredv2
                  | jarr xs =>
                    cases hlk : pii_lists.lookup k with
                    | some sub =>
                      simp only [fieldStep, hlk] at hstep
                      exact Sum.noConfusion (Except.ok.inj hstep)
                    | none =>
                      simp only [fieldStep, hlk] at hstep
                      cases hfe : filterElems xs with
                      | error e => rw [hfe] at hstep; exact Except.noConfusion hstep
                      | ok xs2 =>
                        rw [hfe] at hstep
                        have hv2 : JsonValue.jarr xs2 = v2 := Sum.inr.inj (Except.ok.inj hstep)
                        subst hv2
                        have hlts : sizeOf xs < n := by
                          have hs1 : sizeOf (JsonValue.jarr xs) = 1 + sizeOf xs := by simp
                          omega
                        have hredxs : redactedElemsB xs2 = true :=
                          (ih (sizeOf xs) hlts).2.2 xs le_rfl xs2 hfe
                        simp only [fieldOkB, hlk, Option.isNone_none, Bool.true_and]
                        exact hredxs
                  | jnull =>
                    have hv2 : (if k ∈ pii_keys then JsonValue.jstr "***" else .jnull) = v2 :=
                      Sum.inr.inj (Except.ok.inj hstep)
                    subst hv2
                    by_cases hk : k ∈ pii_keys
                    · simp [fieldOkB, hk, isMask]
                    · simp [fieldOkB, hk]
                  | jbool b =>
                    have hv2 : (if k ∈ pii_keys then JsonValue.jstr "***" else .jbool b) = v2 :=
                      Sum.inr.inj (Except.ok.inj hstep)
                    subst hv2
                    by_cases hk : k ∈ pii_keys
                    · simp [fieldOkB, hk, isMask]
                    · simp [fieldOkB, hk]
                  | jnum nn =>
                    have hv2 : (if k ∈ pii_keys then JsonValue.jstr "***" else .jnum nn) = v2 :=
                      Sum.inr.inj (Except.ok.inj hstep)
                    subst hv2
                    by_cases hk : k ∈ pii_keys
                    · simp [fieldOkB, hk, isMask]
                    · simp [fieldOkB, hk]
                  | jstr st =>
                    have hv2 : (if k ∈ pii_keys then JsonValue.jstr "***" else .jstr st) = v2 :=
                      Sum.inr.inj (Except.ok.inj hstep)
                    subst hv2
                    by_cases hk : k ∈ pii_keys
                    · simp [fieldOkB, hk, isMask]
                    · simp [fieldOkB, hk]
    case pe =>
      intro xs hle xs2 h2
      cases xs with
      | nil =>
        have h0 : (Except.ok ([] : List JsonValue) :
            Except PyErr (List JsonValue)) = .ok xs2 := h2
        cases h0
        rfl
      | cons x rest =>
        have hsz : sizeOf (x :: rest) = 1 + sizeOf x + sizeOf rest := by simp
        rw [hsz] at hle
        have hltx : sizeOf x < n := by omega
        have hltrest : sizeOf rest < n := by omega
        cases hfp : filter_pii x with
        | error e => simp only [filterElems, hfp] at h2; exact Except.noConfusion h2
        | ok x2 =>
          simp only [filterElems, hfp] at h2
          cases hfe : filterElems rest with
          | error e => rw [hfe] at h2; exact Except.noConfusion h2
          | ok r2 =>
            rw [hfe] at h2
            have hx : x2 :: r2 = xs2 := Except.ok.inj h2
            subst hx
            have hrx : redactedB x2 = true := (ih (sizeOf x) hltx).1 x le_rfl x2 hfp
            have hrr : redactedElemsB r2 = true :=
              (ih (sizeOf rest) hltrest).2.2 rest le_rfl r2 hfe
            simp only [redactedElemsB, hrx, hrr, Bool.and_self]

theorem isMask_elim {v : JsonValue} (h : isMask v = true) : v = .jstr "***" := by
  cases v with
  | jstr s => exact congrArg JsonValue.jstr (eq_of_beq h)
  | jnull => exact Bool.noConfusion h
  | jbool b => exact Bool.noConfusion h
  | jnum n => exact Bool.noConfusion h
  | jarr xs => exact Bool.noConfusion h
  | jobj fs => exact Bool.noConfusion h

theorem isSubObj_elim {fields : List (String × JsonValue)} (h : isSubObj fields = true) :
    fields = [("sim_id", .jobj [("operator", .jstr "***"), ("id", .jstr "***")])] ∨
    fields = [("loc", .jarr [])] := by
  unfold isSubObj at h
  split at h
  · rw [Bool.and_eq_true, Bool.and_eq_true, Bool.and_eq_true, Bool.and_eq_true] at h
    obtain ⟨h1, h2, h3, h4, h5⟩ := h
    left
    rw [eq_of_beq h1, eq_of_beq h2, eq_of_beq h3, eq_of_beq h4, eq_of_beq h5]
  · rw [Bool.and_eq_true] at h
    obtain ⟨h1, h2⟩ := h
    right
    rename_i k xs
    rw [eq_of_beq h1]
    cases xs with
    | nil => rfl
    | cons a l => exact Bool.noConfusion h2
  · exact Bool.noConfusion h

/-- Every redacted fixed point is left unchanged by the redactor
(completeness half of idempotence). -/
theorem redact_complete : ∀ n : Nat,
    (∀ v : JsonValue, sizeOf v ≤ n → redactedB v = true → filter_pii v = .ok v) ∧
    (∀ l : List (String × JsonValue), sizeOf l ≤ n → redactedFieldsB l = true →
      filterFields l = .ok (.inr l)) ∧
    (∀ xs : List JsonValue, sizeOf xs ≤ n → redactedElemsB xs = true →
      filterElems xs = .ok xs) := by
  intro n
  induction n using Nat.strong_induction_on with
  | _ n ih =>
    refine ⟨?pv, ?pl, ?pe⟩
    case pv =>
      intro v hle hred
      cases v with
      | jobj fields =>
        have hlt : sizeOf fields < n := by
          have hs : sizeOf (JsonValue.jobj fields) = 1 + sizeOf fields := by simp
          rw [hs] at hle
          omega
        rw [redactedB, Bool.or_eq_true] at hred
        cases hred with
        | inl hf =>
          have hff := (ih (sizeOf fields) hlt).2.1 fields le_rfl hf
          simp only [filter_pii, hff]
        | inr hs =>
          cases isSubObj_elim hs with
          | inl heq => subst heq; rfl
          | inr heq => subst heq; rfl
      | jarr xs => exact Bool.noConfusion hred
      | jnull => rfl
      | jbool b => rfl
      | jnum nn => rfl
      | jstr st => rfl
    case pl =>
      intro l hle hred
      cases l with
      | nil => rfl
      | cons f rest =>
        obtain ⟨k, v⟩ := f
        have hsz : sizeOf ((k, v) :: rest) = 1 + (1 + sizeOf k + sizeOf v) + sizeOf rest := by
          simp
        rw [hsz] at hle
        have hltrest : sizeOf rest < n := by omega
        have hltv : sizeOf v < n := by omega
        rw [redactedFieldsB_cons, Bool.and_eq_true] at hred
        obtain ⟨hok, hrest⟩ := hred
        have hffrest := (ih (sizeOf rest) hltrest).2.1 rest le_rfl hrest
        have hstep : fieldStep k v = .ok (.inr v) := by
          cases v with
          | jobj m =>
            rw [fieldOkB, Bool.and_eq_true] at hok
            obtain ⟨h1, h2⟩ := hok
            have hlk : pii_dicts.lookup k = none := Option.isNone_iff_eq_none.mp h1
            have hfp := (ih (sizeOf (JsonValue.jobj m)) hltv).1 (.jobj m) le_rfl h2
            simp only [fieldStep, hlk, hfp]
          | jarr xs =>
            rw [fieldOkB, Bool.and_eq_true] at hok
            obtain ⟨h1, h2⟩ := hok
            have hlk : pii_lists.lookup k = none := Option.isNone_iff_eq_none.mp h1
            have hlts : sizeOf xs < n := by
              have hs1 : sizeOf (JsonValue.jarr xs) = 1 + sizeOf xs := by simp
              omega
            have hfe := (ih (sizeOf xs) hlts).2.2 xs le_rfl h2
            simp only [fieldStep, hlk, hfe]
          | jnull =>
            have hok2 : (!(decide (k ∈ pii_keys)) || isMask JsonValue.jnull) = true := hok
            rw [Bool.or_eq_true] at hok2
            by_cases hk : k ∈ pii_keys
            · cases hok2 with
              | inl h1 => rw [Bool.not_eq_true', decide_eq_false_iff_not] at h1; exact absurd hk h1
              | inr h2 => exact absurd (isMask_elim h2) (by intro hcon; cases hcon)
            · exact congrArg (fun z => Except.ok (Sum.inr z)) (if_neg hk)
          | jbool b =>
            have hok2 : (!(decide (k ∈ pii_keys)) || isMask (JsonValue.jbool b)) = true := hok
            rw [Bool.or_eq_true] at hok2
            by_cases hk : k ∈ pii_keys
            · cases hok2 with
              | inl h1 => rw [Bool.not_eq_true', decide_eq_false_iff_not] at h1; exact absurd hk h1
              | inr h2 => exact absurd (isMask_elim h2) (by intro hcon; cases hcon)
            · exact congrArg (fun z => Except.ok (Sum.inr z)) (if_neg hk)
          | jnum nn =>
            have hok2 : (!(decide (k ∈ pii_keys)) || isMask (JsonValue.jnum nn)) = true := hok
            rw [Bool.or_eq_true] at hok2
            by_cases hk : k ∈ pii_keys
            · cases hok2 with
              | inl h1 => rw [Bool.not_eq_true', decide_eq_false_iff_not] at h1; exact absurd hk h1
              | inr h2 => exact absurd (isMask_elim h2) (by intro hcon; cases hcon)
            · exact congrArg (fun z => Except.ok (Sum.inr z)) (if_neg hk)
          | jstr st =>
            have hok2 : (!(decide (k ∈ pii_keys)) || isMask (JsonValue.jstr st)) = true := hok
            rw [Bool.or_eq_true] at hok2
            by_cases hk : k ∈ pii_keys
            · cases hok2 with
              | inl h1 => rw [Bool.not_eq_true', decide_eq_false_iff_not] at h1; exact absurd hk h1
              | inr h2 =>
                rw [isMask_elim h2]
                exact congrArg (fun z => Except.ok (Sum.inr z)) (if_pos hk)
            · exact congrArg (fun z => Except.ok (Sum.inr z)) (if_neg hk)
        rw [filterFields_cons, hstep, hffrest]
    case pe =>
      intro xs hle hred
      cases xs with
      | nil => rfl
      | cons x rest =>
        have hsz : sizeOf (x :: rest) = 1 + sizeOf x + sizeOf rest := by simp
        rw [hsz] at hle
        have hltx : sizeOf x < n := by omega
        have hltrest : sizeOf rest < n := by omega
        rw [redactedElemsB, Bool.and_eq_true] at hred
        obtain ⟨hx, hrest⟩ := hred
        have hfp := (ih (sizeOf x) hltx).1 x le_rfl hx
        have hfe := (ih (sizeOf rest) hltrest).2.2 rest le_rfl hrest
        simp only [filterElems, hfp, hfe]

/-- Claim C8: redaction is idempotent — as a computation, running the
redactor on its own output changes nothing (errors propagate, successful
outputs are fixed points), so redacting an already-redacted tree is a
no-op. -/
theorem C8_idempotent :
    (∀ x : JsonValue, (filter_pii x).bind filter_pii = filter_pii x) ∧
    (∀ x y : JsonValue, filter_pii x = .ok y → filter_pii y = .ok y) := by
  have hsucc : ∀ x y : JsonValue, filter_pii x = .ok y → filter_pii y = .ok y := by
    intro x y hxy
    have hred : redactedB y = true := (redact_sound (sizeOf x)).1 x le_rfl y hxy
    exact (redact_complete (sizeOf y)).1 y le_rfl hred
  refine ⟨?pb, hsucc⟩
  intro x
  cases hx : filter_pii x with
  | error e => rfl
  | ok y => exact hsucc x y hx

theorem C8_idempotent_witness :
    (filter_pii (.jobj [("password", .jstr "hunter2"), ("loc", .jarr [.jnum 1]),
        ("sub", .jobj [("sim_id", .jobj [("id", .jnum 7)])])])).bind filter_pii =
      filter_pii (.jobj [("password", .jstr "hunter2"), ("loc", .jarr [.jnum 1]),
        ("sub", .jobj [("sim_id", .jobj [("id", .jnum 7)])])]) ∧
    filter_pii (.jobj [("password", .jstr "***")]) = .ok (.jobj [("password", .jstr "***")]) :=
  ⟨C8_idempotent.1 (.jobj [("password", .jstr "hunter2"), ("loc", .jarr [.jnum 1]),
      ("sub", .jobj [("sim_id", .jobj [("id", .jnum 7)])])]),
    C8_idempotent.2 (.jobj [("password", .jstr "hunter2")])
      (.jobj [("password", .jstr "***")]) rfl⟩
